import Mathlib

/-
Verification of the address-standardization core
(standardize_addresses.py): the text preprocessor, the house-number
normalizer and the street normalizer, embedded over lists of
characters. Python strings are modelled as List Char; fallible
functions (which can raise in Python) return Option.
-/

set_option maxHeartbeats 1000000

namespace SAddr

/-- Whitespace as matched by the regex class \s and stripped by
Python str.strip, restricted to the ASCII range. -/
def isWs (c : Char) : Bool :=
  c = ' ' || c = '\t' || c = '\n' || c = '\x0B' || c = '\x0C' || c = '\r'

/-- Uppercasing of a single character, as Python str.upper acts on the
ASCII range: a lowercase letter is shifted to its uppercase form, any
other character is unchanged. -/
def upperChar (c : Char) : Char :=
  if 97 ≤ c.toNat ∧ c.toNat ≤ 122 then Char.ofNat (c.toNat - 32) else c

/-- data.upper() -/
def pyUpper (l : List Char) : List Char := l.map upperChar

/-- Removal of leading whitespace. -/
def stripLeft (l : List Char) : List Char := l.dropWhile isWs

/-- Removal of trailing whitespace. -/
def stripRight (l : List Char) : List Char := (l.reverse.dropWhile isWs).reverse

/-- data.strip() -/
def pyStrip (l : List Char) : List Char := stripRight (stripLeft l)

/-- One pass of re.sub with pattern \s\s and replacement a single
space: each non-overlapping pair of consecutive whitespace characters,
found scanning left to right, becomes one space. -/
def subSS : List Char → List Char
  | a :: b :: rest =>
    if isWs a && isWs b then ' ' :: subSS rest else a :: subSS (b :: rest)
  | l => l

/-- re.search with pattern \s\s: the text contains two consecutive
whitespace characters. -/
def hasSS : List Char → Bool
  | a :: b :: rest => (isWs a && isWs b) || hasSS (b :: rest)
  | _ => false

/-- Fuelled form of the preprocess while-loop: as long as the text has
two consecutive whitespace characters, apply one substitution pass. -/
def collapseF : Nat → List Char → List Char
  | 0, l => l
  | fuel + 1, l => if hasSS l then collapseF fuel (subSS l) else l

/-- The while-loop of preprocess: substitute pairs of consecutive
whitespace characters until none remain.  Each pass strictly shrinks
the text, so length-many passes always reach the fixed point. -/
def collapse (l : List Char) : List Char := collapseF (l.length + 1) l

/-- preprocess: uppercase, strip outer whitespace, then collapse every
run of consecutive whitespace down to single spaces. -/
def preprocess (data : List Char) : List Char := collapse (pyStrip (pyUpper data))

/-- Attempt of the delimiter regex of re.split, with the alternatives
one-or-more-whitespace around an ampersand with \s* on both sides,
the same around a comma, and whitespace-surrounded AND or OR with
\s+ on both sides, at the start of the text.  At any position the
leading \s* or \s+ can only stop at the first non-whitespace
character, so the match is decided by the maximal whitespace run and
what follows it; on success the remainder after the (greedy) match is
returned. -/
def matchDelim (l : List Char) : Option (List Char) :=
  match l.dropWhile isWs with
  | '&' :: t => some (t.dropWhile isWs)
  | ',' :: t => some (t.dropWhile isWs)
  | 'A' :: 'N' :: 'D' :: t =>
    match t with
    | c :: _ =>
      if (l.takeWhile isWs).length ≠ 0 ∧ isWs c then some (t.dropWhile isWs)
      else none
    | [] => none
  | 'O' :: 'R' :: t =>
    match t with
    | c :: _ =>
      if (l.takeWhile isWs).length ≠ 0 ∧ isWs c then some (t.dropWhile isWs)
      else none
    | [] => none
  | _ => none

/-- Fuelled scanner of re.split: at each position, remove the leftmost
delimiter match and record a piece boundary, or move one character
from the input into the current piece (held reversed in acc). -/
def reSplitF : Nat → List Char → List Char → List (List Char)
  | 0, _, acc => [acc.reverse]
  | fuel + 1, l, acc =>
    match matchDelim l with
    | some rest => acc.reverse :: reSplitF fuel rest []
    | none =>
      match l with
      | [] => [acc.reverse]
      | c :: t => reSplitF fuel t (c :: acc)

/-- re.split of the delimiter regex over the whole text: every step
consumes at least one character, so length-many steps suffice. -/
def reSplit (l : List Char) (acc : List Char) : List (List Char) :=
  reSplitF (l.length + 1) l acc

/-- The nonempty pieces of the split, in order: the list comprehension
keeping the split results of positive length. -/
def candidates (l : List Char) : List (List Char) :=
  (reSplit l []).filter (fun s => !s.isEmpty)

/-- Python str.join with the given separator. -/
def joinWith (sep : List Char) : List (List Char) → List Char
  | [] => []
  | [x] => x
  | x :: y :: rest => x ++ sep ++ joinWith sep (y :: rest)

/-- The characters kept by the substitution deleting everything
outside the class with question mark, the digits, R and the dot. -/
def keepHN (c : Char) : Bool :=
  c = '?' || ('0' ≤ c && c ≤ '9') || c = 'R' || c = '.'

/-- standardize_housenum: split the field, keep the tail pieces
verbatim as the additional house numbers, and derive the primary from
the first piece by character cleaning, the partial and rear flags,
leading-dot stripping, and truncation at the first remaining dot.
Python raises on an empty candidate list; that is modelled by none. -/
def standardize_housenum (housenum : List Char) :
    Option (List Char × List Char × List Char × List Char) :=
  match candidates housenum with
  | [] => none
  | first :: rest =>
    let additional_housenums := joinWith ([',', ' ']) rest
    let hn0 := first.filter keepHN
    let partFlag := if hn0.contains '?' then ['P'] else []
    let rear := if hn0.contains 'R' then ['R'] else []
    let hn1 := if hn0.contains 'R' then hn0.filter (fun c => c ≠ 'R') else hn0
    let hn2 := hn1.dropWhile (fun c => c = '.')
    let hn3 := hn2.takeWhile (fun c => c ≠ '.')
    some (hn3, partFlag, rear, additional_housenums)

/-- The directionals dictionary of standardize_street. -/
def directionals : List (List Char × List Char) :=
  [(['N'], ['N']),
   (['N', 'E'], ['N', 'E']),
   (['E'], ['E']),
   (['S', 'E'], ['S', 'E']),
   (['S'], ['S']),
   (['S', 'W'], ['S', 'W']),
   (['W'], ['W']),
   (['N', 'W'], ['N', 'W']),
   (['N', 'O', 'R', 'T', 'H'], ['N']),
   (['N', 'O', 'R', 'T', 'H', 'E', 'A', 'S', 'T'], ['N', 'E']),
   (['E', 'A', 'S', 'T'], ['E']),
   (['S', 'O', 'U', 'T', 'H', 'E', 'A', 'S', 'T'], ['S', 'E']),
   (['S', 'O', 'U', 'T', 'H'], ['S']),
   (['S', 'O', 'U', 'T', 'H', 'W', 'E', 'S', 'T'], ['S', 'W']),
   (['W', 'E', 'S', 'T'], ['W']),
   (['N', 'O', 'R', 'T', 'H', 'W', 'E', 'S', 'T'], ['N', 'W'])]

/-- The suffixes dictionary of standardize_street. -/
def suffixes : List (List Char × List Char) :=
  [(['A', 'L', 'L', 'E', 'E'], ['A', 'L', 'L', 'E', 'Y']),
   (['A', 'L', 'L', 'E', 'Y'], ['A', 'L', 'L', 'E', 'Y']),
   (['A', 'L', 'L', 'Y'], ['A', 'L', 'L', 'E', 'Y']),
   (['A', 'L', 'Y'], ['A', 'L', 'L', 'E', 'Y']),
   (['A', 'V'], ['A', 'V', 'E']),
   (['A', 'V', 'E'], ['A', 'V', 'E']),
   (['A', 'V', 'E', 'N'], ['A', 'V', 'E']),
   (['A', 'V', 'E', 'N', 'U'], ['A', 'V', 'E']),
   (['A', 'V', 'E', 'N', 'U', 'E'], ['A', 'V', 'E']),
   (['A', 'V', 'N'], ['A', 'V', 'E']),
   (['A', 'V', 'N', 'U', 'E'], ['A', 'V', 'E']),
   (['H', 'I', 'G', 'H', 'W', 'A', 'Y'], ['H', 'W', 'Y']),
   (['H', 'I', 'G', 'H', 'W', 'Y'], ['H', 'W', 'Y']),
   (['H', 'I', 'W', 'A', 'Y'], ['H', 'W', 'Y']),
   (['H', 'I', 'W', 'Y'], ['H', 'W', 'Y']),
   (['H', 'W', 'A', 'Y'], ['H', 'W', 'Y']),
   (['H', 'W', 'Y'], ['H', 'W', 'Y']),
   (['P', 'L'], ['P', 'L']),
   (['P', 'L', 'A', 'C', 'E'], ['P', 'L']),
   (['R', 'D'], ['R', 'D']),
   (['R', 'O', 'A', 'D'], ['R', 'D']),
   (['S', 'T', 'R', 'E', 'E', 'T'], ['S', 'T']),
   (['S', 'T', 'R', 'T'], ['S', 'T']),
   (['S', 'T'], ['S', 'T']),
   (['S', 'T', 'R'], ['S', 'T'])]

/-- Lookup in a dictionary modelled as an association list (the Python
dictionaries above have pairwise distinct keys). -/
def lookupL (k : List Char) : List (List Char × List Char) → Option (List Char)
  | [] => none
  | (a, b) :: rest => if k = a then some b else lookupL k rest

/-- The characters kept by the substitution deleting everything that
is not an uppercase letter or a digit. -/
def keepAZ09 (c : Char) : Bool :=
  ('A' ≤ c && c ≤ 'Z') || ('0' ≤ c && c ≤ '9')

/-- Fuelled form of Python str.split with no separator argument:
skip leading whitespace, take the maximal non-whitespace run as the
next word, and continue after it. -/
def pyWordsF : Nat → List Char → List (List Char)
  | 0, _ => []
  | fuel + 1, l =>
    match l.dropWhile isWs with
    | [] => []
    | c :: t =>
      ((c :: t).takeWhile (fun x => !isWs x)) ::
        pyWordsF fuel ((c :: t).dropWhile (fun x => !isWs x))

/-- Python str.split with no separator argument: the words of the
text, split on whitespace runs, with no empty pieces.  Every word
consumes at least one character, so length-many steps suffice. -/
def pyWords (l : List Char) : List (List Char) := pyWordsF (l.length + 1) l

/-- The loop over enumerate(street_parts) of standardize_street.
total is the number of tokens of the whole primary candidate; idx is
the index of the first token of toks; the state is the accumulator
triple of name tokens, suffix and directional. -/
def streetLoop (total : Nat) : Nat → List (List Char) →
    List (List Char) × List Char × List Char →
    List (List Char) × List Char × List Char
  | _, [], st => st
  | idx, tok :: rest, (names, suffix, directional) =>
    let p := tok.filter keepAZ09
    if p = ['S', 'T'] ∧ idx = 0 ∧ 1 < total then
      streetLoop total (idx + 1) rest (names ++ [p], suffix, directional)
    else
      match lookupL p directionals with
      | some d => streetLoop total (idx + 1) rest (names, suffix, d)
      | none =>
        match lookupL p suffixes with
        | some sf => streetLoop total (idx + 1) rest (names, sf, directional)
        | none =>
          if p ≠ [] ∧ p ≠ ['I', 'L', 'L', 'E', 'G', 'I', 'B', 'L', 'E'] ∧
              p ≠ ['N', 'O'] then
            streetLoop total (idx + 1) rest (names ++ [p], suffix, directional)
          else
            streetLoop total (idx + 1) rest (names, suffix, directional)

/-- standardize_street: split the field, keep the tail pieces verbatim
as the additional streets, tokenize the first piece on whitespace
(treating the sentinels ILLEGIBLE and NO as having no tokens) and
classify each cleaned token as the literal first-position ST name
token, a directional, a suffix, or a name token.  Python raises on an
empty candidate list; that is modelled by none. -/
def standardize_street (street : List Char) :
    Option (List Char × List Char × List Char × List Char) :=
  match candidates street with
  | [] => none
  | first :: rest =>
    let additional_streets := joinWith ([',', ' ']) rest
    let street_parts :=
      if first = ['I', 'L', 'L', 'E', 'G', 'I', 'B', 'L', 'E'] ∨ first = ['N', 'O']
      then [] else pyWords first
    let res := streetLoop street_parts.length 0 street_parts ([], [], [])
    some (joinWith ([' ']) res.1, res.2.1, res.2.2, additional_streets)

/-- Every character of the text is fixed by uppercasing. -/
def upperFixed (l : List Char) : Prop := ∀ c ∈ l, upperChar c = c

/-- The text does not start with a whitespace character. -/
def noLeadWs (l : List Char) : Prop := ∀ c, l.head? = some c → isWs c = false

/-- The text does not end with a whitespace character. -/
def noTrailWs (l : List Char) : Prop := ∀ c, l.getLast? = some c → isWs c = false

/-- The canonical forms of the tokens of toks that the street loop
classifies as directionals (a cleaned token found in the directional
vocabulary, other than a literal first-position ST name token), in
token order.  Stated from the specification to express the last-match-
wins behavior of the loop. -/
def dirMatches (total : Nat) : Nat → List (List Char) → List (List Char)
  | _, [] => []
  | idx, tok :: rest =>
    let p := tok.filter keepAZ09
    if p = ['S', 'T'] ∧ idx = 0 ∧ 1 < total then dirMatches total (idx + 1) rest
    else
      match lookupL p directionals with
      | some d => d :: dirMatches total (idx + 1) rest
      | none => dirMatches total (idx + 1) rest

/-- The canonical forms of the tokens of toks that the street loop
classifies as suffixes (a cleaned token found in the suffix vocabulary
that is neither a literal first-position ST name token nor a
directional), in token order. -/
def sufMatches (total : Nat) : Nat → List (List Char) → List (List Char)
  | _, [] => []
  | idx, tok :: rest =>
    let p := tok.filter keepAZ09
    if p = ['S', 'T'] ∧ idx = 0 ∧ 1 < total then sufMatches total (idx + 1) rest
    else
      match lookupL p directionals with
      | some _ => sufMatches total (idx + 1) rest
      | none =>
        match lookupL p suffixes with
        | some sf => sf :: sufMatches total (idx + 1) rest
        | none => sufMatches total (idx + 1) rest

theorem subSS_length_le : ∀ l : List Char, (subSS l).length ≤ l.length
  | [] => Nat.le_refl _
  | [_] => Nat.le_refl _
  | a :: b :: rest => by
    show (subSS (a :: b :: rest)).length ≤ (a :: b :: rest).length
    rw [subSS]
    split
    · have := subSS_length_le rest
      simp only [List.length_cons]
      omega
    · have := subSS_length_le (b :: rest)
      simp only [List.length_cons] at this ⊢
      omega

theorem subSS_length_lt : ∀ l : List Char, hasSS l = true → (subSS l).length < l.length
  | [] => by simp [hasSS]
  | [_] => by simp [hasSS]
  | a :: b :: rest => by
    intro h
    rw [subSS]
    split
    · have := subSS_length_le rest
      simp only [List.length_cons]
      omega
    · next hab =>
      rw [hasSS] at h
      rw [Bool.or_eq_true] at h
      rcases h with h | h
      · exact absurd h (by simpa using hab)
      · have := subSS_length_lt (b :: rest) h
        simp only [List.length_cons] at this ⊢
        omega

theorem collapseF_fuel_irrel :
    ∀ f₁ f₂ (l : List Char), l.length < f₁ → l.length < f₂ →
      collapseF f₁ l = collapseF f₂ l := by
  intro f₁
  induction f₁ with
  | zero => intro f₂ l h₁ _; omega
  | succ a ih =>
    intro f₂ l h₁ h₂
    cases f₂ with
    | zero => omega
    | succ b =>
      rw [collapseF, collapseF]
      by_cases h : hasSS l = true
      · rw [if_pos h, if_pos h]
        have hlt := subSS_length_lt l h
        exact ih b (subSS l) (by omega) (by omega)
      · rw [if_neg h, if_neg h]

/-- The defining equation of the while-loop, free of fuel. -/
theorem collapse_eq (l : List Char) :
    collapse l = if hasSS l then collapse (subSS l) else l := by
  show collapseF (l.length + 1) l = _
  rw [collapseF]
  by_cases h : hasSS l = true
  · rw [if_pos h, if_pos h]
    exact collapseF_fuel_irrel _ _ _ (subSS_length_lt l h) (Nat.lt_succ_self _)
  · rw [if_neg h, if_neg h]

theorem dropWhile_length_le (p : Char → Bool) :
    ∀ l : List Char, (l.dropWhile p).length ≤ l.length := by
  intro l
  induction l with
  | nil => simp [List.dropWhile]
  | cons a t ih =>
    rw [List.dropWhile]
    by_cases h : p a = true
    · rw [h]
      simp only [List.length_cons]
      omega
    · rw [Bool.not_eq_true] at h
      rw [h]

theorem matchDelim_length_lt (l r : List Char) (h : matchDelim l = some r) :
    r.length < l.length := by
  unfold matchDelim at h
  have hd : (l.dropWhile isWs).length ≤ l.length := dropWhile_length_le isWs l
  split at h
  · next t heq =>
    rw [heq] at hd
    have := dropWhile_length_le isWs t
    simp only [Option.some.injEq] at h
    subst h
    simp only [List.length_cons] at hd
    omega
  · next t heq =>
    rw [heq] at hd
    have := dropWhile_length_le isWs t
    simp only [Option.some.injEq] at h
    subst h
    simp only [List.length_cons] at hd
    omega
  · next t heq =>
    rw [heq] at hd
    have := dropWhile_length_le isWs t
    split at h
    · split at h
      · simp only [Option.some.injEq] at h
        subst h
        simp only [List.length_cons] at hd this ⊢
        omega
      · exact absurd h (by simp)
    · exact absurd h (by simp)
  · next t heq =>
    rw [heq] at hd
    have := dropWhile_length_le isWs t
    split at h
    · split at h
      · simp only [Option.some.injEq] at h
        subst h
        simp only [List.length_cons] at hd this ⊢
        omega
      · exact absurd h (by simp)
    · exact absurd h (by simp)
  · exact absurd h (by simp)

theorem reSplitF_succ (fuel : Nat) (l acc : List Char) :
    reSplitF (fuel + 1) l acc =
      match matchDelim l with
      | some rest => acc.reverse :: reSplitF fuel rest []
      | none =>
        match l with
        | [] => [acc.reverse]
        | c :: t => reSplitF fuel t (c :: acc) := rfl

theorem reSplitF_fuel_irrel :
    ∀ f₁ f₂ (l acc : List Char), l.length < f₁ → l.length < f₂ →
      reSplitF f₁ l acc = reSplitF f₂ l acc := by
  intro f₁
  induction f₁ with
  | zero => intro f₂ l acc h₁ _; omega
  | succ a ih =>
    intro f₂ l acc h₁ h₂
    cases f₂ with
    | zero => omega
    | succ b =>
      rw [reSplitF_succ, reSplitF_succ]
      cases hm : matchDelim l with
      | some rest =>
        have := matchDelim_length_lt l rest hm
        simp only
        rw [ih b rest [] (by omega) (by omega)]
      | none =>
        cases l with
        | nil => rfl
        | cons c t =>
          simp only [List.length_cons] at h₁ h₂
          simp only
          rw [ih b t (c :: acc) (by omega) (by omega)]

/-- The defining equation of the re.split scanner, free of fuel. -/
theorem reSplit_eq (l acc : List Char) :
    reSplit l acc =
      match matchDelim l with
      | some rest => acc.reverse :: reSplit rest []
      | none =>
        match l with
        | [] => [acc.reverse]
        | c :: t => reSplit t (c :: acc) := by
  show reSplitF (l.length + 1) l acc = _
  rw [reSplitF_succ]
  cases hm : matchDelim l with
  | some rest =>
    have := matchDelim_length_lt l rest hm
    simp only
    exact congrArg _ (reSplitF_fuel_irrel _ _ _ _ (by omega) (by omega))
  | none =>
    cases l with
    | nil => rfl
    | cons c t =>
      simp only [List.length_cons]
      exact reSplitF_fuel_irrel _ _ _ _ (by omega) (by omega)

theorem pyWords_dec {l c : List Char} {a : Char} (h : l.dropWhile isWs = a :: c) :
    ((a :: c).dropWhile (fun x => !isWs x)).length < l.length := by
  have h1 : isWs a = false := by
    have : ∀ m : List Char, m.dropWhile isWs = a :: c → isWs a = false := by
      intro m
      induction m with
      | nil => intro hm; simp [List.dropWhile] at hm
      | cons x t ih =>
        intro hm
        rw [List.dropWhile] at hm
        by_cases hx : isWs x = true
        · rw [hx] at hm
          exact ih hm
        · rw [Bool.not_eq_true] at hx
          rw [hx] at hm
          cases hm
          exact hx
    exact this l h
  have h2 : (a :: c).dropWhile (fun x => !isWs x) = c.dropWhile (fun x => !isWs x) := by
    rw [List.dropWhile]
    simp [h1]
  have h3 := dropWhile_length_le (fun x => !isWs x) c
  have h4 : (l.dropWhile isWs).length ≤ l.length := dropWhile_length_le isWs l
  rw [h] at h4
  simp only [List.length_cons] at h4
  rw [h2]
  omega

theorem pyWordsF_succ (fuel : Nat) (l : List Char) :
    pyWordsF (fuel + 1) l =
      match l.dropWhile isWs with
      | [] => []
      | c :: t =>
        ((c :: t).takeWhile (fun x => !isWs x)) ::
          pyWordsF fuel ((c :: t).dropWhile (fun x => !isWs x)) := rfl

theorem pyWordsF_fuel_irrel :
    ∀ f₁ f₂ (l : List Char), l.length < f₁ → l.length < f₂ →
      pyWordsF f₁ l = pyWordsF f₂ l := by
  intro f₁
  induction f₁ with
  | zero => intro f₂ l h₁ _; omega
  | succ a ih =>
    intro f₂ l h₁ h₂
    cases f₂ with
    | zero => omega
    | succ b =>
      rw [pyWordsF_succ, pyWordsF_succ]
      cases hm : l.dropWhile isWs with
      | nil => rfl
      | cons c t =>
        have := pyWords_dec hm
        simp only
        rw [ih b _ (by omega) (by omega)]

/-- The defining equation of str.split, free of fuel. -/
theorem pyWords_eq (l : List Char) :
    pyWords l =
      match l.dropWhile isWs with
      | [] => []
      | c :: t =>
        ((c :: t).takeWhile (fun x => !isWs x)) ::
          pyWords ((c :: t).dropWhile (fun x => !isWs x)) := by
  show pyWordsF (l.length + 1) l = _
  rw [pyWordsF_succ]
  cases hm : l.dropWhile isWs with
  | nil => rfl
  | cons c t =>
    have := pyWords_dec hm
    simp only
    exact congrArg _ (pyWordsF_fuel_irrel _ _ _ (by omega) (by omega))

/-
Lemmas about the preprocessor.
-/

theorem toNat_ofNat_valid (n : Nat) (h : Nat.isValidChar n) :
    (Char.ofNat n).toNat = n := by
  simp only [Char.ofNat, h, dif_pos, Char.ofNatAux, Char.toNat]
  rfl

theorem upperChar_idem (c : Char) : upperChar (upperChar c) = upperChar c := by
  unfold upperChar
  split
  · next h =>
    have hvalid : Nat.isValidChar (c.toNat - 32) := by
      left
      have : c.toNat - 32 < 55296 := by omega
      exact_mod_cast this
    have hv : (Char.ofNat (c.toNat - 32)).toNat = c.toNat - 32 :=
      toNat_ofNat_valid _ hvalid
    rw [if_neg]
    omega
  · rfl

theorem upperFixed_pyUpper (l : List Char) : upperFixed (pyUpper l) := by
  intro c hc
  rw [pyUpper] at hc
  rcases List.mem_map.mp hc with ⟨a, _, ha⟩
  rw [← ha]
  exact upperChar_idem a

theorem pyUpper_eq_self {l : List Char} (h : upperFixed l) : pyUpper l = l := by
  induction l with
  | nil => rfl
  | cons a t ih =>
    rw [pyUpper, List.map_cons]
    rw [h a (List.mem_cons_self a t)]
    have := ih (fun c hc => h c (List.mem_cons_of_mem a hc))
    rw [pyUpper] at this
    rw [this]

theorem mem_dropWhile (p : Char → Bool) :
    ∀ (l : List Char) (c : Char), c ∈ l.dropWhile p → c ∈ l := by
  intro l
  induction l with
  | nil => intro c hc; simp [List.dropWhile] at hc
  | cons a t ih =>
    intro c hc
    rw [List.dropWhile] at hc
    by_cases h : p a = true
    · rw [h] at hc
      exact List.mem_cons_of_mem a (ih c hc)
    · rw [Bool.not_eq_true] at h
      rw [h] at hc
      exact hc

theorem mem_subSS : ∀ l (c : Char), c ∈ subSS l → c ∈ l ∨ c = ' '
  | [], c => by intro hc; simp [subSS] at hc
  | [a], c => by
    intro hc
    have he : subSS [a] = [a] := rfl
    rw [he] at hc
    exact Or.inl hc
  | a :: b :: rest, c => by
    intro hc
    rw [subSS] at hc
    split at hc
    · rcases List.mem_cons.mp hc with h | h
      · exact Or.inr h
      · rcases mem_subSS rest c h with h2 | h2
        · exact Or.inl (by simp [h2])
        · exact Or.inr h2
    · rcases List.mem_cons.mp hc with h | h
      · exact Or.inl (by simp [h])
      · rcases mem_subSS (b :: rest) c h with h2 | h2
        · exact Or.inl (List.mem_cons_of_mem a h2)
        · exact Or.inr h2

theorem upperFixed_subSS {l : List Char} (h : upperFixed l) : upperFixed (subSS l) := by
  intro c hc
  rcases mem_subSS l c hc with h2 | h2
  · exact h c h2
  · rw [h2]
    decide

theorem collapseF_preserve (P : List Char → Prop) (hP : ∀ l, P l → P (subSS l)) :
    ∀ fuel l, P l → P (collapseF fuel l) := by
  intro fuel
  induction fuel with
  | zero => intro l h; exact h
  | succ a ih =>
    intro l h
    rw [collapseF]
    by_cases hs : hasSS l = true
    · rw [if_pos hs]
      exact ih (subSS l) (hP l h)
    · rw [if_neg hs]
      exact h

theorem upperFixed_collapse {l : List Char} (h : upperFixed l) :
    upperFixed (collapse l) :=
  collapseF_preserve upperFixed (fun _ hl => upperFixed_subSS hl) _ l h

theorem upperFixed_pyStrip {l : List Char} (h : upperFixed l) :
    upperFixed (pyStrip l) := by
  intro c hc
  rw [pyStrip, stripRight, stripLeft] at hc
  rw [List.mem_reverse] at hc
  have hc2 := mem_dropWhile isWs _ c hc
  rw [List.mem_reverse] at hc2
  exact h c (mem_dropWhile isWs l c hc2)

theorem dropWhile_head_false (p : Char → Bool) :
    ∀ (l : List Char) c t, l.dropWhile p = c :: t → p c = false := by
  intro l
  induction l with
  | nil => intro c t h; simp [List.dropWhile] at h
  | cons a m ih =>
    intro c t h
    rw [List.dropWhile] at h
    by_cases ha : p a = true
    · rw [ha] at h
      exact ih c t h
    · rw [Bool.not_eq_true] at ha
      rw [ha] at h
      cases h
      exact ha

theorem noLeadWs_stripLeft (l : List Char) : noLeadWs (stripLeft l) := by
  intro c hc
  rw [stripLeft] at hc
  cases hd : l.dropWhile isWs with
  | nil => rw [hd] at hc; simp at hc
  | cons x t =>
    rw [hd] at hc
    simp only [List.head?_cons, Option.some.injEq] at hc
    subst hc
    exact dropWhile_head_false isWs l x t hd

theorem dropWhile_append_singleton (p : Char → Bool) (a : Char) (ha : p a = false) :
    ∀ xs : List Char, (xs ++ [a]).dropWhile p = xs.dropWhile p ++ [a] := by
  intro xs
  induction xs with
  | nil => simp [List.dropWhile, ha]
  | cons x t ih =>
    rw [List.cons_append, List.dropWhile, List.dropWhile]
    by_cases hx : p x = true
    · rw [hx]
      exact ih
    · rw [Bool.not_eq_true] at hx
      rw [hx]
      rfl

theorem noLeadWs_stripRight {l : List Char} (h : noLeadWs l) :
    noLeadWs (stripRight l) := by
  cases l with
  | nil => intro c hc; simp [stripRight, List.dropWhile] at hc
  | cons a t =>
    have ha : isWs a = false := h a rfl
    intro c hc
    rw [stripRight, List.reverse_cons, dropWhile_append_singleton isWs a ha,
      List.reverse_append] at hc
    simp only [List.reverse_cons, List.reverse_nil, List.nil_append,
      List.singleton_append, List.head?_cons, Option.some.injEq] at hc
    subst hc
    exact ha

theorem noTrailWs_stripRight (l : List Char) : noTrailWs (stripRight l) := by
  intro c hc
  rw [stripRight, List.getLast?_reverse] at hc
  cases hd : l.reverse.dropWhile isWs with
  | nil => rw [hd] at hc; simp at hc
  | cons x t =>
    rw [hd] at hc
    simp only [List.head?_cons, Option.some.injEq] at hc
    subst hc
    exact dropWhile_head_false isWs l.reverse x t hd

theorem noTrailWs_stripLeft {l : List Char} (h : noTrailWs l) :
    noTrailWs (stripLeft l) := by
  rw [stripLeft]
  induction l with
  | nil => intro c hc; simp [List.dropWhile] at hc
  | cons a t ih =>
    rw [List.dropWhile]
    by_cases ha : isWs a = true
    · rw [ha]
      cases t with
      | nil => intro c hc; simp [List.dropWhile] at hc
      | cons b m =>
        have ht : noTrailWs (b :: m) := by
          intro c hc
          apply h
          rw [List.getLast?_cons_cons]
          exact hc
        exact ih ht
    · rw [Bool.not_eq_true] at ha
      rw [ha]
      exact h

theorem subSS_ne_nil : ∀ l : List Char, l ≠ [] → subSS l ≠ [] := by
  intro l hl
  match l with
  | [a] => simp [subSS]
  | a :: b :: rest =>
    rw [subSS]
    split
    · simp
    · simp

theorem noLeadWs_subSS {l : List Char} (h : noLeadWs l) : noLeadWs (subSS l) := by
  match l with
  | [] => exact h
  | [a] => exact h
  | a :: b :: rest =>
    have ha : isWs a = false := h a rfl
    rw [subSS]
    split
    · next hab =>
      rw [Bool.and_eq_true] at hab
      rw [ha] at hab
      exact absurd hab.1 (by simp)
    · intro c hc
      simp only [List.head?_cons, Option.some.injEq] at hc
      subst hc
      exact ha

theorem noTrailWs_subSS : ∀ l : List Char, noTrailWs l → noTrailWs (subSS l)
  | [] => fun h => h
  | [a] => fun h => h
  | a :: b :: rest => by
    intro h
    rw [subSS]
    split
    · next hab =>
      rw [Bool.and_eq_true] at hab
      cases rest with
      | nil =>
        have hb : isWs b = false := h b rfl
        rw [hb] at hab
        exact absurd hab.2 (by simp)
      | cons x m =>
        have hrest : noTrailWs (x :: m) := by
          intro c hc
          apply h
          rw [List.getLast?_cons_cons, List.getLast?_cons_cons]
          exact hc
        have hsub := noTrailWs_subSS (x :: m) hrest
        intro c hc
        apply hsub
        cases hnn : subSS (x :: m) with
        | nil => exact absurd hnn (subSS_ne_nil (x :: m) (by simp))
        | cons y ys =>
          rw [hnn] at hc
          rw [List.getLast?_cons_cons] at hc
          exact hc
    · have hrest : noTrailWs (b :: rest) := by
        intro c hc
        apply h
        rw [List.getLast?_cons_cons]
        exact hc
      have hsub := noTrailWs_subSS (b :: rest) hrest
      intro c hc
      apply hsub
      cases hnn : subSS (b :: rest) with
      | nil => exact absurd hnn (subSS_ne_nil (b :: rest) (by simp))
      | cons y ys =>
        rw [hnn] at hc
        rw [List.getLast?_cons_cons] at hc
        exact hc

theorem noLeadWs_collapse {l : List Char} (h : noLeadWs l) : noLeadWs (collapse l) :=
  collapseF_preserve noLeadWs (fun _ hl => noLeadWs_subSS hl) _ l h

theorem noTrailWs_collapse {l : List Char} (h : noTrailWs l) : noTrailWs (collapse l) :=
  collapseF_preserve noTrailWs (fun m hl => noTrailWs_subSS m hl) _ l h

theorem hasSS_collapseF :
    ∀ fuel (l : List Char), l.length < fuel → hasSS (collapseF fuel l) = false := by
  intro fuel
  induction fuel with
  | zero => intro l h; omega
  | succ a ih =>
    intro l h
    rw [collapseF]
    by_cases hs : hasSS l = true
    · rw [if_pos hs]
      have := subSS_length_lt l hs
      exact ih (subSS l) (by omega)
    · rw [if_neg hs]
      rw [Bool.not_eq_true] at hs
      exact hs

theorem hasSS_collapse (l : List Char) : hasSS (collapse l) = false :=
  hasSS_collapseF _ l (Nat.lt_succ_self _)

theorem stripLeft_eq_self {l : List Char} (h : noLeadWs l) : stripLeft l = l := by
  cases l with
  | nil => rfl
  | cons a t =>
    rw [stripLeft, List.dropWhile]
    rw [h a rfl]

theorem stripRight_eq_self {l : List Char} (h : noTrailWs l) : stripRight l = l := by
  rw [stripRight]
  cases hd : l.reverse with
  | nil =>
    have : l = [] := by
      have := congrArg List.reverse hd
      rwa [List.reverse_reverse] at this
    subst this
    rfl
  | cons x t =>
    have hx : isWs x = false := by
      apply h
      rw [← List.head?_reverse, hd]
      rfl
    simp only [List.dropWhile_cons, hx]
    simp only [Bool.false_eq_true, if_false]
    have h2 := congrArg List.reverse hd
    rw [List.reverse_reverse] at h2
    exact h2.symm

theorem collapse_eq_self {l : List Char} (h : hasSS l = false) : collapse l = l := by
  rw [collapse_eq, h]
  simp

theorem preprocess_upperFixed (l : List Char) : upperFixed (preprocess l) :=
  upperFixed_collapse (upperFixed_pyStrip (upperFixed_pyUpper l))

theorem preprocess_noLeadWs (l : List Char) : noLeadWs (preprocess l) :=
  noLeadWs_collapse (noLeadWs_stripRight (noLeadWs_stripLeft (pyUpper l)))

theorem preprocess_noTrailWs (l : List Char) : noTrailWs (preprocess l) :=
  noTrailWs_collapse (noTrailWs_stripRight (stripLeft (pyUpper l)))

theorem preprocess_hasSS (l : List Char) : hasSS (preprocess l) = false :=
  hasSS_collapse _

theorem preprocess_idem (l : List Char) : preprocess (preprocess l) = preprocess l := by
  rw [preprocess, pyUpper_eq_self (preprocess_upperFixed l)]
  rw [pyStrip, stripLeft_eq_self (preprocess_noLeadWs l),
    stripRight_eq_self (preprocess_noTrailWs l)]
  exact collapse_eq_self (preprocess_hasSS l)

theorem streetLoop_dir :
    ∀ (toks : List (List Char)) (total idx : Nat) (ns : List (List Char))
      (sf dr : List Char),
      (streetLoop total idx toks (ns, sf, dr)).2.2 =
        (dirMatches total idx toks).getLastD dr := by
  intro toks
  induction toks with
  | nil => intro total idx ns sf dr; rfl
  | cons tok rest ih =>
    intro total idx ns sf dr
    rw [streetLoop, dirMatches]
    by_cases hst : tok.filter keepAZ09 = ['S', 'T'] ∧ idx = 0 ∧ 1 < total
    · rw [if_pos hst, if_pos hst]
      exact ih total (idx + 1) (ns ++ [tok.filter keepAZ09]) sf dr
    · rw [if_neg hst, if_neg hst]
      cases hdir : lookupL (tok.filter keepAZ09) directionals with
      | some d =>
        rw [List.getLastD_cons]
        exact ih total (idx + 1) ns sf d
      | none =>
        cases hsuf : lookupL (tok.filter keepAZ09) suffixes with
        | some s => exact ih total (idx + 1) ns s dr
        | none =>
          by_cases hne : tok.filter keepAZ09 ≠ [] ∧
              tok.filter keepAZ09 ≠ ['I', 'L', 'L', 'E', 'G', 'I', 'B', 'L', 'E'] ∧
              tok.filter keepAZ09 ≠ ['N', 'O']
          · rw [if_pos hne]
            exact ih total (idx + 1) (ns ++ [tok.filter keepAZ09]) sf dr
          · rw [if_neg hne]
            exact ih total (idx + 1) ns sf dr

theorem streetLoop_suf :
    ∀ (toks : List (List Char)) (total idx : Nat) (ns : List (List Char))
      (sf dr : List Char),
      (streetLoop total idx toks (ns, sf, dr)).2.1 =
        (sufMatches total idx toks).getLastD sf := by
  intro toks
  induction toks with
  | nil => intro total idx ns sf dr; rfl
  | cons tok rest ih =>
    intro total idx ns sf dr
    rw [streetLoop, sufMatches]
    by_cases hst : tok.filter keepAZ09 = ['S', 'T'] ∧ idx = 0 ∧ 1 < total
    · rw [if_pos hst, if_pos hst]
      exact ih total (idx + 1) (ns ++ [tok.filter keepAZ09]) sf dr
    · rw [if_neg hst, if_neg hst]
      cases hdir : lookupL (tok.filter keepAZ09) directionals with
      | some d => exact ih total (idx + 1) ns sf d
      | none =>
        cases hsuf : lookupL (tok.filter keepAZ09) suffixes with
        | some s =>
          rw [List.getLastD_cons]
          exact ih total (idx + 1) ns s dr
        | none =>
          by_cases hne : tok.filter keepAZ09 ≠ [] ∧
              tok.filter keepAZ09 ≠ ['I', 'L', 'L', 'E', 'G', 'I', 'B', 'L', 'E'] ∧
              tok.filter keepAZ09 ≠ ['N', 'O']
          · rw [if_pos hne]
            exact ih total (idx + 1) (ns ++ [tok.filter keepAZ09]) sf dr
          · rw [if_neg hne]
            exact ih total (idx + 1) ns sf dr

theorem lookupL_mem :
    ∀ (m : List (List Char × List Char)) (k v : List Char),
      lookupL k m = some v → (k, v) ∈ m := by
  intro m
  induction m with
  | nil => intro k v h; simp [lookupL] at h
  | cons p rest ih =>
    intro k v h
    obtain ⟨a, b⟩ := p
    rw [lookupL] at h
    by_cases hk : k = a
    · rw [if_pos hk] at h
      simp only [Option.some.injEq] at h
      subst h
      subst hk
      exact List.mem_cons_self _ _
    · rw [if_neg hk] at h
      exact List.mem_cons_of_mem _ (ih k v h)

theorem directionals_values_closed :
    ∀ p ∈ directionals, lookupL p.2 directionals = some p.2 := by decide

theorem suffixes_values_closed :
    ∀ p ∈ suffixes, lookupL p.2 suffixes = some p.2 := by decide

theorem noLeadWs_all {l : List Char} (h : noLeadWs l) :
    l.head?.all (fun c => !isWs c) = true := by
  cases hh : l.head? with
  | none => rfl
  | some c =>
    show (!isWs c) = true
    rw [h c hh]
    rfl

theorem noTrailWs_all {l : List Char} (h : noTrailWs l) :
    l.getLast?.all (fun c => !isWs c) = true := by
  cases hh : l.getLast? with
  | none => rfl
  | some c =>
    show (!isWs c) = true
    rw [h c hh]
    rfl

/-
Claim theorems.
-/

/-- C1: for an input whose split yields zero nonempty candidates (the
empty string, or a string of delimiters only such as a comma between
spaces), the spec demands an explicit EmptyValueError.  The code has
no such error: it indexes the empty candidate list.  In the embedding
the candidate list is empty and neither normalizer produces a result
tuple on these inputs. -/
theorem claim_C1 :
    candidates ("".data) = [] ∧
    candidates (" , ".data) = [] ∧
    standardize_housenum ("".data) = none ∧
    standardize_street ("".data) = none ∧
    standardize_housenum (" , ".data) = none ∧
    standardize_street (" , ".data) = none := by
  refine ⟨by decide, by decide, by decide, by decide, by decide, by decide⟩

/-- C2, counterexample: standardize_housenum applied to the text 12?.5
does not return the tuple claimed by the spec, with primary 12: the
question mark is never removed from the cleaned value, so the primary
keeps it. -/
theorem claim_C2_counterexample :
    standardize_housenum ("12?.5".data) ≠
      some (['1', '2'], ['P'], [], []) := by decide

/-- C2, amended: standardize_housenum applied to the text 12?.5
returns primary 12? (the digits and the retained question mark, with
the fractional part after the dot dropped), partial flag P because the
cleaned value contains a question mark, empty rear flag and empty
additional values. -/
theorem claim_C2 :
    standardize_housenum ("12?.5".data) =
      some (['1', '2', '?'], ['P'], [], []) := by decide

/-- C3: preprocess is idempotent: preprocessing an already
preprocessed text changes nothing. -/
theorem claim_C3 (x : List Char) : preprocess (preprocess x) = preprocess x :=
  preprocess_idem x

/-- C4: the result of preprocess is uppercased (fixed by uppercasing),
has no leading and no trailing whitespace character, contains no two
consecutive whitespace characters, and the empty input maps to the
empty output; two concrete cases show an internal run of five spaces
and a run of three tabs each collapsing to one single space. -/
theorem claim_C4 (x : List Char) :
    pyUpper (preprocess x) = preprocess x ∧
    (preprocess x).head?.all (fun c => !isWs c) = true ∧
    (preprocess x).getLast?.all (fun c => !isWs c) = true ∧
    hasSS (preprocess x) = false ∧
    preprocess ([]) = [] ∧
    preprocess ("A     b".data) = ['A', ' ', 'B'] ∧
    preprocess ("A\t\t\tB".data) = ['A', ' ', 'B'] :=
  ⟨pyUpper_eq_self (preprocess_upperFixed x),
   noLeadWs_all (preprocess_noLeadWs x),
   noTrailWs_all (preprocess_noTrailWs x),
   preprocess_hasSS x,
   rfl,
   by decide,
   by decide⟩

/-- C5: in the street loop, a first token (index zero) whose cleaned
value is exactly ST, in a primary candidate of more than one raw
token, is appended to the name accumulator rather than classified as a
suffix; in particular standardize_street on ST JAMES PLACE yields name
ST JAMES, suffix PL and empty directional. -/
theorem claim_C5 :
    (∀ (total : Nat) (tok : List Char) (rest : List (List Char))
        (ns : List (List Char)) (sf dr : List Char),
      tok.filter keepAZ09 = ['S', 'T'] → 1 < total →
      streetLoop total 0 (tok :: rest) (ns, sf, dr) =
        streetLoop total 1 rest (ns ++ [['S', 'T']], sf, dr)) ∧
    standardize_street ("ST JAMES PLACE".data) =
      some (['S', 'T', ' ', 'J', 'A', 'M', 'E', 'S'], ['P', 'L'], [], []) := by
  constructor
  · intro total tok rest ns sf dr hp htot
    rw [streetLoop]
    rw [hp]
    rw [if_pos ⟨rfl, rfl, htot⟩]
  · decide

/-- C5 witness: the loop-level fact applied at the concrete token list
of ST JAMES PLACE. -/
theorem claim_C5_witness :
    (['S', 'T'] : List Char).filter keepAZ09 = ['S', 'T'] ∧ (1 : Nat) < 3 ∧
    streetLoop 3 0
        ([['S', 'T'], ['J', 'A', 'M', 'E', 'S'], ['P', 'L', 'A', 'C', 'E']])
        ([], [], []) =
      streetLoop 3 1
        ([['J', 'A', 'M', 'E', 'S'], ['P', 'L', 'A', 'C', 'E']])
        ([['S', 'T']], [], []) :=
  ⟨by decide, by decide,
   claim_C5.1 3 (['S', 'T'])
     ([['J', 'A', 'M', 'E', 'S'], ['P', 'L', 'A', 'C', 'E']]) [] [] []
     (by decide) (by decide)⟩

/-- C6: last match wins, without error, for directionals and for
suffixes: the directional accumulator of the street loop ends as the
canonical form of the last token classified as a directional (the
initial value if none), and likewise the suffix accumulator; two
end-to-end cases with two directional tokens and with two suffix
tokens show the later token winning. -/
theorem claim_C6 :
    (∀ (toks : List (List Char)) (total idx : Nat) (ns : List (List Char))
        (sf dr : List Char),
      (streetLoop total idx toks (ns, sf, dr)).2.2 =
          (dirMatches total idx toks).getLastD dr ∧
      (streetLoop total idx toks (ns, sf, dr)).2.1 =
          (sufMatches total idx toks).getLastD sf) ∧
    standardize_street ("N MAIN S ST".data) =
      some (['M', 'A', 'I', 'N'], ['S', 'T'], ['S'], []) ∧
    standardize_street ("MAIN AVE RD".data) =
      some (['M', 'A', 'I', 'N'], ['R', 'D'], [], []) :=
  ⟨fun toks total idx ns sf dr =>
    ⟨streetLoop_dir toks total idx ns sf dr,
     streetLoop_suf toks total idx ns sf dr⟩,
   by decide, by decide⟩

/-- C7: a primary street candidate that is verbatim the sentinel
ILLEGIBLE or NO contributes no tokens, so the name, suffix and
directional are all empty and only the additional streets remain; in
particular standardize_street on ILLEGIBLE yields four empty fields. -/
theorem claim_C7 :
    (∀ (s first : List Char) (rest : List (List Char)),
      candidates s = first :: rest →
      (first = ['I', 'L', 'L', 'E', 'G', 'I', 'B', 'L', 'E'] ∨ first = ['N', 'O']) →
      standardize_street s = some ([], [], [], joinWith ([',', ' ']) rest)) ∧
    standardize_street ("ILLEGIBLE".data) = some ([], [], [], []) := by
  constructor
  · intro s first rest hc hsent
    unfold standardize_street
    rw [hc]
    dsimp only
    rw [if_pos hsent]
    rfl
  · decide

/-- C7 witness: the sentinel fact applied to a concrete input with a
second candidate. -/
theorem claim_C7_witness :
    candidates ("ILLEGIBLE, X".data) =
      [['I', 'L', 'L', 'E', 'G', 'I', 'B', 'L', 'E'], ['X']] ∧
    standardize_street ("ILLEGIBLE, X".data) = some ([], [], [], ['X']) :=
  ⟨by decide,
   claim_C7.1 ("ILLEGIBLE, X".data) (['I', 'L', 'L', 'E', 'G', 'I', 'B', 'L', 'E'])
     ([['X']]) (by decide) (Or.inl rfl)⟩

/-- C8: when the split yields two or more candidates, every candidate
after the first is passed through verbatim, joined with comma-space,
as the additional field of both normalizers; concretely MAIN ST and
OAK AVE joined by an ampersand yield additional OAK AVE, and 123 and
456 joined by an ampersand yield additional 456. -/
theorem claim_C8 :
    (∀ (s first r1 : List Char) (rrest : List (List Char)),
      candidates s = first :: r1 :: rrest →
      (∃ a b c, standardize_housenum s =
        some (a, b, c, joinWith ([',', ' ']) (r1 :: rrest))) ∧
      (∃ a b c, standardize_street s =
        some (a, b, c, joinWith ([',', ' ']) (r1 :: rrest)))) ∧
    standardize_street ("MAIN ST & OAK AVE".data) =
      some (['M', 'A', 'I', 'N'], ['S', 'T'], [],
        ['O', 'A', 'K', ' ', 'A', 'V', 'E']) ∧
    standardize_housenum ("123 & 456".data) =
      some (['1', '2', '3'], [], [], ['4', '5', '6']) := by
  refine ⟨?_, by decide, by decide⟩
  intro s first r1 rrest hc
  constructor
  · unfold standardize_housenum
    rw [hc]
    exact ⟨_, _, _, rfl⟩
  · unfold standardize_street
    rw [hc]
    exact ⟨_, _, _, rfl⟩

/-- C8 witness: the verbatim-additional fact applied at a concrete
three-candidate input. -/
theorem claim_C8_witness :
    candidates ("A & B & C".data) = [['A'], ['B'], ['C']] ∧
    (∃ a b c, standardize_housenum ("A & B & C".data) =
      some (a, b, c, joinWith ([',', ' ']) ([['B'], ['C']]))) ∧
    (∃ a b c, standardize_street ("A & B & C".data) =
      some (a, b, c, joinWith ([',', ' ']) ([['B'], ['C']]))) :=
  ⟨by decide,
   (claim_C8.1 ("A & B & C".data) (['A']) (['B']) ([['C']]) (by decide)).1,
   (claim_C8.1 ("A & B & C".data) (['A']) (['B']) ([['C']]) (by decide)).2⟩

/-- C9: the directional and suffix vocabularies are closed under their
own output: any canonical value produced by a lookup is itself a key
of the same vocabulary and maps to itself. -/
theorem claim_C9 :
    (∀ k v : List Char,
      lookupL k directionals = some v → lookupL v directionals = some v) ∧
    (∀ k v : List Char,
      lookupL k suffixes = some v → lookupL v suffixes = some v) := by
  constructor
  · intro k v h
    exact directionals_values_closed (k, v) (lookupL_mem directionals k v h)
  · intro k v h
    exact suffixes_values_closed (k, v) (lookupL_mem suffixes k v h)

/-- C9 witness: the closure fact applied at the surface form NORTH
with canonical form N. -/
theorem claim_C9_witness :
    lookupL (['N', 'O', 'R', 'T', 'H']) directionals = some (['N']) ∧
    lookupL (['N']) directionals = some (['N']) :=
  ⟨by decide, claim_C9.1 (['N', 'O', 'R', 'T', 'H']) (['N']) (by decide)⟩

/-- C10: whenever the split yields at least one candidate,
standardize_housenum returns a result tuple without failing, even if
the first candidate has none of the kept characters; concretely the
input ABC followed by a comma and 456 yields an empty primary with the
additional value 456 still reported. -/
theorem claim_C10 :
    (∀ s : List Char, candidates s ≠ [] →
      (standardize_housenum s).isSome = true) ∧
    (∀ (s first : List Char) (rest : List (List Char)),
      candidates s = first :: rest → first.filter keepHN = [] →
      standardize_housenum s = some ([], [], [], joinWith ([',', ' ']) rest)) ∧
    standardize_housenum ("ABC, 456".data) =
      some ([], [], [], ['4', '5', '6']) := by
  refine ⟨?_, ?_, by decide⟩
  · intro s hne
    cases hc : candidates s with
    | nil => exact absurd hc hne
    | cons f r =>
      unfold standardize_housenum
      rw [hc]
      rfl
  · intro s first rest hc hfil
    unfold standardize_housenum
    rw [hc]
    dsimp only
    rw [hfil]
    rfl

/-- C10 witness: totality and the empty-primary fact applied at the
concrete input. -/
theorem claim_C10_witness :
    candidates ("ABC, 456".data) = [['A', 'B', 'C'], ['4', '5', '6']] ∧
    (standardize_housenum ("ABC, 456".data)).isSome = true ∧
    standardize_housenum ("ABC, 456".data) =
      some ([], [], [], joinWith ([',', ' ']) ([['4', '5', '6']])) :=
  ⟨by decide,
   claim_C10.1 ("ABC, 456".data) (by decide),
   claim_C10.2.1 ("ABC, 456".data) (['A', 'B', 'C']) ([['4', '5', '6']])
     (by decide) (by decide)⟩

end SAddr
